import Mathlib

/-
Verification of the ragpack retrieval core: tokenizer, token chunker,
BM25 sparse index (with serialization round-trip), reciprocal rank
fusion, and the worker ingest commit logic.

The TypeScript sources are shallowly embedded: JavaScript `Map`s become
insertion-ordered association lists (`alGet` / `alSet`), strings become
`String` viewed as a list of characters, float64 score arithmetic becomes
exact arithmetic in `ℝ` (scores involve `Math.log`) or `ℚ` (RRF), and the
stable `Array.prototype.sort` with comparator `(a, b) => b[1] - a[1]`
becomes a stable descending insertion sort. Character classes `\p{L}\p{N}`
and `\s` are modelled by `Char.isAlphanum` and `Char.isWhitespace`, which
agree with the JavaScript regexes on ASCII input.
-/

namespace Ragpack

/-! ## Tokenizer (src/lib/tokenize.ts) -/

/-- Stopword set of src/lib/tokenize.ts (`DEFAULT_STOPWORDS`). -/
def stopwords : List String :=
  ["a", "an", "and", "are", "as", "at", "be", "but", "by", "for", "if",
   "in", "into", "is", "it", "no", "not", "of", "on", "or", "such",
   "that", "the", "their", "then", "there", "these", "they", "this",
   "to", "was", "will", "with"]

/-- Model of the JS `\s` character class (ASCII fragment). -/
def isWS (c : Char) : Bool := c.isWhitespace

/-- Model of `replace(/[^\p{L}\p{N}\s]/gu, " ")` acting on one character:
characters that are not letters, digits, or whitespace become a space. -/
def normChar (c : Char) : Char :=
  if c.isAlphanum || c.isWhitespace then c else ' '

/-- Accumulating splitter for `split(/\s+/).filter(Boolean)`: walk the
characters, collecting the current token in reverse in `acc`. -/
def splitWSGo : List Char → List Char → List String
  | [], acc => if acc.isEmpty then [] else [String.mk acc.reverse]
  | c :: cs, acc =>
    if isWS c then
      if acc.isEmpty then splitWSGo cs []
      else String.mk acc.reverse :: splitWSGo cs []
    else splitWSGo cs (c :: acc)

/-- Split a character list on whitespace runs, dropping empty pieces. -/
def splitWS (cs : List Char) : List String := splitWSGo cs []

/-- Embedding of `tokenize(text, {toLower, removeStopwords})` from
src/lib/tokenize.ts. -/
def tokenizeOpts (text : String) (toLower removeStopwords : Bool) : List String :=
  let normalized := if toLower then text.data.map Char.toLower else text.data
  let toks := splitWS (normalized.map normChar)
  if removeStopwords then toks.filter (fun t => !(stopwords.contains t)) else toks

/-- The default call `tokenize(text)` (both options default to `true`);
every call site in the repository uses the defaults. -/
def tokenize (text : String) : List String := tokenizeOpts text true true

/-! ## Insertion-ordered association lists, the model of a JS `Map`.

`alSet` updates an existing key in place (JS `Map.set` keeps the original
position) and otherwise appends; `alGet` is `Map.get`. -/

/-- Lookup in an insertion-ordered association list (JS `Map.get`). -/
def alGet {α : Type} (k : String) : List (String × α) → Option α
  | [] => none
  | e :: rest => if e.1 = k then some e.2 else alGet k rest

/-- Update-or-append (JS `Map.set`). -/
def alSet {α : Type} (k : String) (v : α) : List (String × α) → List (String × α)
  | [] => [(k, v)]
  | e :: rest => if e.1 = k then (k, v) :: rest else e :: alSet k v rest

/-- Keys of an association list, in order. -/
def alKeys {α : Type} (m : List (String × α)) : List String := m.map Prod.fst

theorem alGet_nil {α : Type} (k : String) : alGet (α := α) k [] = none := rfl

theorem alGet_alSet_self {α : Type} (k : String) (v : α) :
    ∀ m : List (String × α), alGet k (alSet k v m) = some v := by
  intro m
  induction m with
  | nil => simp [alGet, alSet]
  | cons e rest ih =>
    by_cases h : e.1 = k
    · simp [alGet, alSet, h]
    · simp [alGet, alSet, h, ih]

theorem alGet_alSet_ne {α : Type} (j k : String) (v : α) (hne : j ≠ k) :
    ∀ m : List (String × α), alGet j (alSet k v m) = alGet j m := by
  have hkj : k ≠ j := Ne.symm hne
  intro m
  induction m with
  | nil => simp [alGet, alSet, hkj]
  | cons e rest ih =>
    by_cases h : e.1 = k
    · subst h
      simp [alGet, alSet, hkj, Ne.symm hne]
    · by_cases h2 : e.1 = j <;> simp [alGet, alSet, h, h2, hne, ih]

theorem mem_alSet {α : Type} (e : String × α) (k : String) (v : α) :
    ∀ m : List (String × α), e ∈ alSet k v m → e = (k, v) ∨ e ∈ m := by
  intro m
  induction m with
  | nil => simp [alSet]
  | cons f rest ih =>
    by_cases h : f.1 = k
    · intro hm
      simp only [alSet, h, if_pos, List.mem_cons] at hm
      rcases hm with h1 | h2
      · exact Or.inl h1
      · exact Or.inr (List.mem_cons_of_mem _ h2)
    · intro hm
      simp only [alSet, h, if_neg, not_false_iff, List.mem_cons] at hm
      rcases hm with h1 | h2
      · exact Or.inr (by simp [h1])
      · rcases ih h2 with h3 | h4
        · exact Or.inl h3
        · exact Or.inr (List.mem_cons_of_mem _ h4)

theorem alGet_mem {α : Type} (k : String) (v : α) :
    ∀ m : List (String × α), alGet k m = some v → (k, v) ∈ m := by
  intro m
  induction m with
  | nil => simp [alGet]
  | cons e rest ih =>
    intro hv
    rw [alGet] at hv
    by_cases h : e.1 = k
    · rw [if_pos h] at hv
      obtain ⟨a, b⟩ := e
      simp only at h
      subst h
      simp only [Option.some_inj] at hv
      subst hv
      exact List.mem_cons_self _ _
    · rw [if_neg h] at hv
      exact List.mem_cons_of_mem _ (ih hv)

theorem mem_alKeys_alSet {α : Type} (a k : String) (v : α) :
    ∀ m : List (String × α), a ∈ alKeys (alSet k v m) → a = k ∨ a ∈ alKeys m := by
  intro m
  induction m with
  | nil => simp [alSet, alKeys]
  | cons e rest ih =>
    by_cases h : e.1 = k
    · intro hm
      simp only [alSet, h, if_pos, alKeys, List.map_cons, List.mem_cons] at hm
      rcases hm with h1 | h2
      · exact Or.inl h1
      · exact Or.inr (by simp [alKeys]; exact Or.inr (by simpa [alKeys] using h2))
    · intro hm
      simp only [alSet, h, if_neg, not_false_iff, alKeys, List.map_cons, List.mem_cons] at hm
      rcases hm with h1 | h2
      · exact Or.inr (by simp [alKeys, h1])
      · rcases ih h2 with h3 | h4
        · exact Or.inl h3
        · exact Or.inr (by simp [alKeys] at h4 ⊢; exact Or.inr h4)

theorem alKeys_nodup_alSet {α : Type} (k : String) (v : α) :
    ∀ m : List (String × α), (alKeys m).Nodup → (alKeys (alSet k v m)).Nodup := by
  intro m
  induction m with
  | nil => simp [alSet, alKeys]
  | cons e rest ih =>
    intro hnd
    simp only [alKeys, List.map_cons, List.nodup_cons] at hnd
    by_cases h : e.1 = k
    · subst h
      simpa [alSet, alKeys] using hnd
    · simp only [alSet, h, if_neg, not_false_iff, alKeys, List.map_cons, List.nodup_cons]
      constructor
      · intro hmem
        rcases mem_alKeys_alSet e.1 k v rest hmem with h1 | h2
        · exact h h1
        · exact hnd.1 h2
      · exact ih hnd.2

theorem alSet_not_mem_append {α : Type} (k : String) (v : α) :
    ∀ m : List (String × α), k ∉ alKeys m → alSet k v m = m ++ [(k, v)] := by
  intro m
  induction m with
  | nil => simp [alSet]
  | cons e rest ih =>
    intro hk
    simp only [alKeys, List.map_cons, List.mem_cons] at hk
    push_neg at hk
    have h : e.1 ≠ k := fun h => hk.1 h.symm
    simp [alSet, h, ih (by simpa [alKeys] using hk.2)]

/-! ## BM25 sparse index (src/lib/bm25.ts) -/

/-- The `BM25Doc` input record of src/lib/bm25.ts. -/
structure BM25Doc where
  id : String
  text : String
deriving DecidableEq, Repr

/-- The `Posting` record: one `{docId, tf}` entry of a term's posting list. -/
structure Posting where
  docId : String
  tf : Nat
deriving DecidableEq, Repr

/-- State of a `BM25Index` object. `k1` and `b` are fields (overwritten by
`fromJSON`), `vocab` and `docLengths` are insertion-ordered maps, and the
two totals accumulate across `addDocuments` calls. Floats `k1`/`b` are
modelled in `ℚ`. -/
structure BM25State where
  k1 : ℚ
  b : ℚ
  vocab : List (String × List Posting)
  docLengths : List (String × Nat)
  totalDocs : Nat
  totalDocLength : Nat
deriving DecidableEq, Repr

/-- State of `new BM25Index()`: `k1 = 1.2`, `b = 0.75`, everything empty. -/
def emptyIndex : BM25State :=
  { k1 := 6 / 5, b := 3 / 4, vocab := [], docLengths := [], totalDocs := 0,
    totalDocLength := 0 }

/-- One step of the term-frequency accumulation
`tfMap.set(t, (tfMap.get(t) ?? 0) + 1)`. -/
def tfStep (m : List (String × Nat)) (t : String) : List (String × Nat) :=
  alSet t ((alGet t m).getD 0 + 1) m

/-- The `tfMap` built inside `addDocuments` for one document's tokens. -/
def buildTF (tokens : List String) : List (String × Nat) :=
  tokens.foldl tfStep []

/-- One step of the posting-list update
`postings = vocab.get(term) ?? []; postings.push({docId, tf});
vocab.set(term, postings)`. -/
def vocabStep (did : String) (v : List (String × List Posting))
    (e : String × Nat) : List (String × List Posting) :=
  alSet e.1 ((alGet e.1 v).getD [] ++ [Posting.mk did e.2]) v

/-- Adding one document, the loop body of `BM25Index.addDocuments`. -/
def addDoc (st : BM25State) (d : BM25Doc) : BM25State :=
  { k1 := st.k1
    b := st.b
    vocab := (buildTF (tokenize d.text)).foldl (vocabStep d.id) st.vocab
    docLengths := alSet d.id (tokenize d.text).length st.docLengths
    totalDocs := st.totalDocs + 1
    totalDocLength := st.totalDocLength + (tokenize d.text).length }

/-- Embedding of `BM25Index.addDocuments(docs)`. -/
def addDocuments (st : BM25State) (docs : List BM25Doc) : BM25State :=
  docs.foldl addDoc st

/-- Embedding of the private `avgDocLen()` accessor:
`totalDocs ? totalDocLength / totalDocs : 0`. -/
noncomputable def avgDocLen (st : BM25State) : ℝ :=
  if st.totalDocs = 0 then 0 else (st.totalDocLength : ℝ) / (st.totalDocs : ℝ)

/-- Inner loop body of `BM25Index.search`: accumulate one posting's BM25
contribution into the `scores` map. `avg` is the precomputed `avgdl` and
`idf` the current term's idf. -/
noncomputable def scoreStep (st : BM25State) (avg idf : ℝ)
    (sc : List (String × ℝ)) (p : Posting) : List (String × ℝ) :=
  alSet p.docId
    ((alGet p.docId sc).getD 0 +
      idf * ((p.tf : ℝ) * ((st.k1 : ℝ) + 1) /
        ((p.tf : ℝ) +
          (st.k1 : ℝ) *
            (1 - (st.b : ℝ) +
              (st.b : ℝ) * (((alGet p.docId st.docLengths).getD 0 : ℕ) : ℝ) / avg))))
    sc

/-- Outer loop body of `BM25Index.search`: process one query term (skipped
when absent from the vocabulary). -/
noncomputable def termStep (st : BM25State) (avg : ℝ)
    (sc : List (String × ℝ)) (term : String) : List (String × ℝ) :=
  match alGet term st.vocab with
  | none => sc
  | some postings =>
    postings.foldl
      (scoreStep st avg
        (Real.log (1 +
          ((st.totalDocs : ℝ) - (postings.length : ℝ) + 1 / 2) /
            ((postings.length : ℝ) + 1 / 2))))
      sc

/-- The `scores` map computed by `BM25Index.search(query, topK)` before
sorting and truncation. -/
noncomputable def bm25Scores (st : BM25State) (query : String) :
    List (String × ℝ) :=
  (tokenize query).foldl (termStep st (avgDocLen st)) []

/-- Stable descending insertion for the model of the stable JS
`sort((a, b) => b[1] - a[1])`: `x` goes after every strictly greater
element and before the first element that is not strictly greater. -/
def insertDesc {α β : Type} [LinearOrder β] (x : α × β) :
    List (α × β) → List (α × β)
  | [] => [x]
  | y :: ys => if x.2 < y.2 then y :: insertDesc x ys else x :: y :: ys

/-- Stable descending sort by the second component. -/
def sortDesc {α β : Type} [LinearOrder β] (l : List (α × β)) : List (α × β) :=
  l.foldr insertDesc []

/-- Embedding of `BM25Index.search(query, topK)`: sorted scores, first
`topK` entries. -/
noncomputable def searchBM25 (st : BM25State) (query : String) (topK : Nat) :
    List (String × ℝ) :=
  (sortDesc (bm25Scores st query)).take topK

/-- The serializable structure returned by `BM25Index.serialize()`. -/
structure SerializedIndex where
  k1 : ℚ
  b : ℚ
  totalDocs : Nat
  totalDocLength : Nat
  docLengths : List (String × Nat)
  vocab : List (String × List Posting)
deriving DecidableEq, Repr

/-- Embedding of `BM25Index.serialize()`: spread the map entries and copy
each posting record. -/
def serialize (st : BM25State) : SerializedIndex :=
  { k1 := st.k1
    b := st.b
    totalDocs := st.totalDocs
    totalDocLength := st.totalDocLength
    docLengths := st.docLengths
    vocab := st.vocab.map (fun tp => (tp.1, tp.2.map (fun p => Posting.mk p.docId p.tf))) }

/-- Model of `new Map(entries)`: insert the entries in order into an empty
map. -/
def rebuildMap {α : Type} (entries : List (String × α)) : List (String × α) :=
  entries.foldl (fun m e => alSet e.1 e.2 m) []

/-- Embedding of the static `BM25Index.fromJSON(data)`: build a fresh index
and overwrite every field from `data`, rebuilding both maps from their
entry lists. -/
def fromJSON (data : SerializedIndex) : BM25State :=
  { k1 := data.k1
    b := data.b
    vocab := rebuildMap
      (data.vocab.map (fun tp => (tp.1, tp.2.map (fun p => Posting.mk p.docId p.tf))))
    docLengths := rebuildMap data.docLengths
    totalDocs := data.totalDocs
    totalDocLength := data.totalDocLength }

/-! ## Chunker (src/lib/chunk.ts) -/

/-- The `Chunk` record of src/lib/chunk.ts. -/
structure Chunk where
  id : String
  docId : String
  text : String
  charStart : Nat
  charEnd : Nat
deriving DecidableEq, Repr

/-- Scanner behind `[...text.matchAll(/\S+/g)]`: walk the characters at
absolute position `i`; `cur = some s` means a token started at `s` and is
still open. Produces the `[start, end)` span of every maximal
non-whitespace run. -/
def scanAux : List Char → Nat → Option Nat → List (Nat × Nat)
  | [], _, none => []
  | [], i, some s => [(s, i)]
  | c :: cs, i, none =>
    if isWS c then scanAux cs (i + 1) none else scanAux cs (i + 1) (some i)
  | c :: cs, i, some s =>
    if isWS c then (s, i) :: scanAux cs (i + 1) none
    else scanAux cs (i + 1) (some s)

/-- Token spans of a text: the `(m.index, m.index + m[0].length)` pairs of
the `/\S+/g` matches, in order. -/
def tokenSpans (text : String) : List (Nat × Nat) := scanAux text.data 0 none

/-- Fuelled loop of `chunkByTokens`:
`for (tStart = 0; tStart < n; tStart += stride)` emitting the token-index
window `[tStart, min(tStart + maxTokens, n))` and breaking once the window
reaches the final token. Since `stride ≥ 1` at every call site, fuel `n`
is enough for the loop to run to its break or exit condition. -/
def chunkWindowsGo (n maxT stride : Nat) : Nat → Nat → List (Nat × Nat)
  | 0, _ => []
  | fuel + 1, tStart =>
    if tStart < n then
      (tStart, min (tStart + maxT) n) ::
        (if min (tStart + maxT) n = n then []
         else chunkWindowsGo n maxT stride fuel (tStart + stride))
    else []

/-- All token-index windows produced by the `chunkByTokens` loop. -/
def chunkWindows (n maxT stride : Nat) : List (Nat × Nat) :=
  chunkWindowsGo n maxT stride n 0

/-- Chunk id template literal `"{docId}:{charStart}-{charEnd}"`. -/
def mkChunkId (docId : String) (a b : Nat) : String :=
  docId ++ ":" ++ toString a ++ "-" ++ toString b

/-- JS `text.slice(a, b)` (for `0 ≤ a ≤ b`). -/
def strSlice (s : String) (a b : Nat) : String :=
  String.mk ((s.data.drop a).take (b - a))

/-- Chunk built from one token window `w = (tStart, tEnd)`:
`charStart = tokenStarts[tStart]`, `charEnd = tokenEnds[tEnd - 1]`. -/
def chunkOfWindow (text docId : String) (sp : List (Nat × Nat))
    (w : Nat × Nat) : Chunk :=
  { id := mkChunkId docId (sp.getD w.1 (0, 0)).1 (sp.getD (w.2 - 1) (0, 0)).2
    docId := docId
    text := strSlice text (sp.getD w.1 (0, 0)).1 (sp.getD (w.2 - 1) (0, 0)).2
    charStart := (sp.getD w.1 (0, 0)).1
    charEnd := (sp.getD (w.2 - 1) (0, 0)).2 }

/-- Embedding of `chunkByTokens(text, docId, maxTokens, overlapTokens)`.
The stride is `Math.max(1, maxTokens - Math.max(0, overlapTokens))`; with
`Nat` subtraction `max 1 (maxTokens - overlapTokens)` is the same value. -/
def chunkByTokens (text docId : String) (maxTokens overlapTokens : Nat) :
    List Chunk :=
  let sp := tokenSpans text
  if sp = [] then []
  else
    (chunkWindows sp.length maxTokens (max 1 (maxTokens - overlapTokens))).map
      (chunkOfWindow text docId sp)

/-! ## Worker state and reciprocal rank fusion
(src/workers/rag.worker.ts) -/

/-- Retrieval mode of an ingest or search request. -/
inductive Retrieval
  | sparse
  | dense
  | hybrid
deriving DecidableEq, Repr

/-- The worker's module-level state: the `bm25` index, the
`chunkIdToChunk` map and the `embeddingsByChunkId` map (vector contents
modelled as `List ℚ`). -/
structure SessionState where
  bm25 : BM25State
  chunkMap : List (String × Chunk)
  embeddings : List (String × List ℚ)
deriving DecidableEq, Repr

/-- Worker state before any ingest. -/
def emptySession : SessionState :=
  { bm25 := emptyIndex, chunkMap := [], embeddings := [] }

/-- State mutation semantics of `handleIngest(files, method, retrieval)`
after `parseAndChunk` produced `chunks`: the chunk map always receives
every chunk; `buildBM25` runs exactly when the mode is sparse or hybrid;
embeddings are attempted only in dense or hybrid mode, where
`embedResult = none` models the external embedding provider failing (the
`catch` path, which performs no state writes). -/
def ingestCommit (st : SessionState) (chunks : List Chunk) (r : Retrieval)
    (embedResult : Option (List (List ℚ))) : SessionState :=
  let st1 : SessionState :=
    { st with chunkMap := chunks.foldl (fun m c => alSet c.id c m) st.chunkMap }
  let st2 : SessionState :=
    if r = Retrieval.sparse ∨ r = Retrieval.hybrid then
      { st1 with
        bm25 := addDocuments st1.bm25 (chunks.map (fun c => BM25Doc.mk c.id c.text)) }
    else st1
  if r = Retrieval.dense ∨ r = Retrieval.hybrid then
    match embedResult with
    | none => st2
    | some vecs =>
      { st2 with
        embeddings :=
          (chunks.zip vecs).foldl (fun m cv => alSet cv.1.id cv.2 m) st2.embeddings }
  else st2

/-- One RRF accumulation step:
`fused.set(id, (fused.get(id) ?? 0) + 1 / (kRRF + idx + 1))` with
`kRRF = 60`. -/
def rrfAdd (i : Nat) (id : String) (m : List (String × ℚ)) :
    List (String × ℚ) :=
  alSet id ((alGet id m).getD 0 + 1 / (60 + (i : ℚ) + 1)) m

/-- Indexed fold over one ranking, `k` being the zero-based rank of the
head (the `forEach((entry, idx) => ...)` loops of `handleSearch`). -/
def rrfFoldGo (k : Nat) : List String → List (String × ℚ) → List (String × ℚ)
  | [], m => m
  | id :: rest, m => rrfFoldGo (k + 1) rest (rrfAdd k id m)

/-- The `fused` map of hybrid `handleSearch`: dense ranking first, then the
sparse ranking, exactly as in the source. -/
def rrfFused (denseIds sparseIds : List String) : List (String × ℚ) :=
  rrfFoldGo 0 sparseIds (rrfFoldGo 0 denseIds [])

/-- The final hybrid ranking: fused map sorted by descending fused score
(stable) and truncated to `topK`. -/
def hybridRank (denseIds sparseIds : List String) (topK : Nat) :
    List (String × ℚ) :=
  (sortDesc (rrfFused denseIds sparseIds)).take topK

/-- Zero-based position of the first occurrence of `id` in a ranking. -/
def idxOf (id : String) : List String → Nat
  | [] => 0
  | x :: xs => if x = id then 0 else idxOf id xs + 1

/-- RRF contribution of one ranking to one id: `1 / (60 + i + 1)` when the
id sits at zero-based position `i` of the ranking, `0` when absent. -/
def rrfContrib (r : List String) (id : String) : ℚ :=
  if id ∈ r then 1 / (60 + (idxOf id r : ℚ) + 1) else 0

/-! ## Serialization round-trip (claim C1) -/

theorem rebuild_go {α : Type} :
    ∀ (l m : List (String × α)), (alKeys (m ++ l)).Nodup →
      l.foldl (fun m e => alSet e.1 e.2 m) m = m ++ l := by
  intro l
  induction l with
  | nil => intro m _; simp
  | cons e rest ih =>
    intro m hnd
    have hk : e.1 ∉ alKeys m := by
      intro hmem
      simp only [alKeys, List.map_append, List.nodup_append] at hnd
      exact hnd.2.2 hmem (by simp)
    have hset : alSet e.1 e.2 m = m ++ [(e.1, e.2)] := alSet_not_mem_append _ _ m hk
    have he : (e.1, e.2) = e := by cases e; rfl
    rw [List.foldl_cons, hset, he, ih (m ++ [e]) (by simpa using hnd)]
    simp

theorem rebuildMap_eq {α : Type} (l : List (String × α))
    (hnd : (alKeys l).Nodup) : rebuildMap l = l := by
  have := rebuild_go l [] (by simpa [alKeys] using hnd)
  simpa [rebuildMap] using this

theorem posting_copy_id :
    ∀ l : List Posting, l.map (fun p => Posting.mk p.docId p.tf) = l := by
  intro l
  induction l with
  | nil => rfl
  | cons p rest ih => cases p; simp [ih]

theorem vocab_copy_id :
    ∀ v : List (String × List Posting),
      v.map (fun tp => (tp.1, tp.2.map (fun p => Posting.mk p.docId p.tf))) = v := by
  intro v
  induction v with
  | nil => rfl
  | cons tp rest ih => cases tp; simp [posting_copy_id, ih]

/-- Well-formed key sets: both maps of the index have pairwise distinct
keys (true of any state built through `addDocuments`). -/
def KeysOK (st : BM25State) : Prop :=
  (alKeys st.docLengths).Nodup ∧ (alKeys st.vocab).Nodup

theorem vocabFold_keysNodup (did : String) :
    ∀ (tfl : List (String × Nat)) (v : List (String × List Posting)),
      (alKeys v).Nodup → (alKeys (tfl.foldl (vocabStep did) v)).Nodup := by
  intro tfl
  induction tfl with
  | nil => intro v h; exact h
  | cons e rest ih =>
    intro v h
    exact ih _ (alKeys_nodup_alSet _ _ _ h)

theorem addDoc_keysOK (st : BM25State) (d : BM25Doc) (h : KeysOK st) :
    KeysOK (addDoc st d) := by
  exact ⟨alKeys_nodup_alSet _ _ _ h.1, vocabFold_keysNodup _ _ _ h.2⟩

theorem addDocuments_keysOK :
    ∀ (docs : List BM25Doc) (st : BM25State), KeysOK st →
      KeysOK (addDocuments st docs) := by
  intro docs
  induction docs with
  | nil => intro st h; exact h
  | cons d rest ih =>
    intro st h
    exact ih (addDoc st d) (addDoc_keysOK st d h)

theorem emptyIndex_keysOK : KeysOK emptyIndex := by
  constructor <;> simp [emptyIndex, alKeys]

theorem fromJSON_serialize (st : BM25State) (h : KeysOK st) :
    fromJSON (serialize st) = st := by
  obtain ⟨k1, b, vocab, docLengths, totalDocs, totalDocLength⟩ := st
  obtain ⟨h1, h2⟩ := h
  simp only [fromJSON, serialize, vocab_copy_id]
  congr 1
  · exact rebuildMap_eq _ h2
  · exact rebuildMap_eq _ h1

/-- Claim C1: serializing a `BM25Index` built by any sequence of
`addDocuments` calls and reconstructing it with `BM25Index.fromJSON`
yields an index whose `search` results are identical (same ids, same
scores, same order) for every query and `topK`. -/
theorem roundtrip_search_eq (docs : List BM25Doc) (query : String) (topK : Nat) :
    searchBM25 (fromJSON (serialize (addDocuments emptyIndex docs))) query topK =
      searchBM25 (addDocuments emptyIndex docs) query topK := by
  rw [fromJSON_serialize _ (addDocuments_keysOK docs emptyIndex emptyIndex_keysOK)]

/-! ## Further association-list lemmas -/

theorem alGet_eq_none_of_not_mem {α : Type} (k : String) :
    ∀ m : List (String × α), k ∉ alKeys m → alGet k m = none := by
  intro m
  induction m with
  | nil => intro _; rfl
  | cons e rest ih =>
    intro hk
    simp only [alKeys, List.map_cons, List.mem_cons] at hk
    push_neg at hk
    have h : e.1 ≠ k := fun h => hk.1 h.symm
    simp [alGet, h, ih (by simpa [alKeys] using hk.2)]

theorem mem_keys_of_mem {α : Type} (k : String) (v : α)
    (m : List (String × α)) (h : (k, v) ∈ m) : k ∈ alKeys m := by
  simpa [alKeys] using List.mem_map_of_mem Prod.fst h

theorem alGet_of_mem_nodup {α : Type} (k : String) (v : α) :
    ∀ m : List (String × α), (alKeys m).Nodup → (k, v) ∈ m →
      alGet k m = some v := by
  intro m
  induction m with
  | nil => simp
  | cons e rest ih =>
    intro hnd hm
    simp only [alKeys, List.map_cons, List.nodup_cons] at hnd
    rcases List.mem_cons.mp hm with h1 | h2
    · rw [← h1]
      simp [alGet]
    · have hk : e.1 ≠ k := by
        intro h
        exact hnd.1 (h ▸ mem_keys_of_mem k v rest h2)
      simp [alGet, hk, ih (by simpa [alKeys] using hnd.2) h2]

/-- Propositional all-elements predicate (recursive, no binders). -/
def ForallList {α : Type} (P : α → Prop) : List α → Prop
  | [] => True
  | x :: xs => P x ∧ ForallList P xs

theorem forallList_iff {α : Type} (P : α → Prop) :
    ∀ l : List α, ForallList P l ↔ ∀ e ∈ l, P e := by
  intro l
  induction l with
  | nil => simp [ForallList]
  | cons x xs ih => simp [ForallList, ih]

/-! ## Empty-index search (claim C6) -/

theorem termStep_emptyIndex (a : ℝ) (sc : List (String × ℝ)) (t : String) :
    termStep emptyIndex a sc t = sc := rfl

theorem bm25Scores_emptyIndex (query : String) :
    bm25Scores emptyIndex query = [] := by
  show (tokenize query).foldl (termStep emptyIndex (avgDocLen emptyIndex)) [] = []
  generalize tokenize query = l
  induction l with
  | nil => rfl
  | cons t rest ih => simpa [termStep_emptyIndex] using ih

/-- Claim C6: searching the freshly constructed index (no documents added,
`N = 0`, `avgdl = 0`) returns the empty result list for every query and
`topK`; no score entry is ever produced, so no division by zero occurs. -/
theorem search_empty_index (query : String) (topK : Nat) :
    searchBM25 emptyIndex query topK = [] := by
  simp [searchBM25, bm25Scores_emptyIndex, sortDesc]

/-! ## addDocuments is not idempotent (claim C9) -/

theorem buildTF_keysNodup_go :
    ∀ (toks : List String) (m : List (String × Nat)), (alKeys m).Nodup →
      (alKeys (toks.foldl tfStep m)).Nodup := by
  intro toks
  induction toks with
  | nil => intro m h; exact h
  | cons t rest ih => intro m h; exact ih _ (alKeys_nodup_alSet _ _ _ h)

theorem buildTF_keysNodup (toks : List String) :
    (alKeys (buildTF toks)).Nodup :=
  buildTF_keysNodup_go toks [] (by simp [alKeys])

theorem alGet_cons_ne {α : Type} (t : String) (e : String × α)
    (rest : List (String × α)) (h : e.1 ≠ t) :
    alGet t (e :: rest) = alGet t rest := by
  simp [alGet, h]

theorem vocabFold_get_none (did : String) :
    ∀ (tfl : List (String × Nat)) (v : List (String × List Posting))
      (t : String), alGet t tfl = none →
      alGet t (tfl.foldl (vocabStep did) v) = alGet t v := by
  intro tfl
  induction tfl with
  | nil => intro v t _; rfl
  | cons e rest ih =>
    intro v t hget
    have he : e.1 ≠ t := by
      intro h
      rw [alGet, if_pos h] at hget
      cases hget
    rw [alGet_cons_ne t e rest he] at hget
    rw [List.foldl_cons, ih _ t hget]
    exact alGet_alSet_ne t e.1 _ (Ne.symm he) v

theorem vocabFold_get_some (did : String) :
    ∀ (tfl : List (String × Nat)) (v : List (String × List Posting))
      (t : String) (n : Nat), (alKeys tfl).Nodup → alGet t tfl = some n →
      alGet t (tfl.foldl (vocabStep did) v) =
        some ((alGet t v).getD [] ++ [Posting.mk did n]) := by
  intro tfl
  induction tfl with
  | nil => intro v t n _ hget; cases hget
  | cons e rest ih =>
    intro v t n hnd hget
    simp only [alKeys, List.map_cons, List.nodup_cons] at hnd
    rw [List.foldl_cons]
    by_cases h : e.1 = t
    · have hrest : alGet t rest = none := by
        apply alGet_eq_none_of_not_mem
        rw [← h]
        simpa [alKeys] using hnd.1
      rw [alGet, if_pos h] at hget
      have hn : e.2 = n := by injection hget
      rw [vocabFold_get_none did rest _ t hrest]
      show alGet t (alSet e.1 ((alGet e.1 v).getD [] ++ [Posting.mk did e.2]) v) = _
      rw [h, hn, alGet_alSet_self]
    · rw [alGet_cons_ne t e rest h] at hget
      rw [ih _ t n (by simpa [alKeys] using hnd.2) hget]
      simp only [vocabStep]
      rw [alGet_alSet_ne t e.1 _ (Ne.symm h) v]

/-- Claim C9: `addDocuments` is not idempotent. Re-adding a document whose
chunk id is already present (here: the identical document added twice, in
any starting state) increments the total document count again, adds its
token count to the total length again, and appends a second posting with
the same `docId` to every one of its terms' posting lists; the state is
not left unchanged. -/
theorem addDocuments_not_idempotent (st : BM25State) (d : BM25Doc) :
    (addDoc (addDoc st d) d).totalDocs = st.totalDocs + 2 ∧
    (addDoc (addDoc st d) d).totalDocLength =
      st.totalDocLength + 2 * (tokenize d.text).length ∧
    ForallList
      (fun e : String × Nat =>
        alGet e.1 (addDoc (addDoc st d) d).vocab =
          some ((alGet e.1 st.vocab).getD [] ++
            [Posting.mk d.id e.2, Posting.mk d.id e.2]))
      (buildTF (tokenize d.text)) ∧
    addDoc (addDoc st d) d ≠ addDoc st d := by
  refine ⟨by simp [addDoc], by simp [addDoc]; ring, ?_, ?_⟩
  · rw [forallList_iff]
    intro e he
    have hnd := buildTF_keysNodup (tokenize d.text)
    have hget : alGet e.1 (buildTF (tokenize d.text)) = some e.2 := by
      obtain ⟨a, b⟩ := e
      exact alGet_of_mem_nodup a b _ hnd he
    have h1 : alGet e.1 (addDoc st d).vocab =
        some ((alGet e.1 st.vocab).getD [] ++ [Posting.mk d.id e.2]) :=
      vocabFold_get_some d.id _ st.vocab e.1 e.2 hnd hget
    have h2 : alGet e.1 (addDoc (addDoc st d) d).vocab =
        some ((alGet e.1 (addDoc st d).vocab).getD [] ++ [Posting.mk d.id e.2]) :=
      vocabFold_get_some d.id _ (addDoc st d).vocab e.1 e.2 hnd hget
    rw [h2, h1]
    simp
  · intro heq
    have := congrArg BM25State.totalDocs heq
    simp [addDoc] at this

/-! ## Reciprocal rank fusion (claims C5 and C8) -/

theorem rrfFoldGo_get_not_mem (id : String) :
    ∀ (r : List String) (k : Nat) (m : List (String × ℚ)), id ∉ r →
      alGet id (rrfFoldGo k r m) = alGet id m := by
  intro r
  induction r with
  | nil => intro k m _; rfl
  | cons x rest ih =>
    intro k m hmem
    simp only [List.mem_cons] at hmem
    push_neg at hmem
    rw [rrfFoldGo, ih (k + 1) _ hmem.2]
    exact alGet_alSet_ne id x _ hmem.1 m

theorem rrfFoldGo_get_mem (id : String) :
    ∀ (r : List String) (k : Nat) (m : List (String × ℚ)), r.Nodup → id ∈ r →
      alGet id (rrfFoldGo k r m) =
        some ((alGet id m).getD 0 + 1 / (60 + ((k + idxOf id r : ℕ) : ℚ) + 1)) := by
  intro r
  induction r with
  | nil => intro k m _ h; cases h
  | cons x rest ih =>
    intro k m hnd hmem
    rw [List.nodup_cons] at hnd
    by_cases h : x = id
    · have hni : id ∉ rest := h ▸ hnd.1
      rw [rrfFoldGo, rrfFoldGo_get_not_mem id rest (k + 1) _ hni]
      simp only [rrfAdd]
      rw [h, alGet_alSet_self]
      simp only [idxOf, if_pos h]
      norm_num
    · have hmr : id ∈ rest := by
        rcases List.mem_cons.mp hmem with h1 | h2
        · exact absurd h1.symm h
        · exact h2
      rw [rrfFoldGo, ih (k + 1) _ hnd.2 hmr]
      have hm : alGet id (rrfAdd k x m) = alGet id m :=
        alGet_alSet_ne id x _ (fun hh => h hh.symm) m
      rw [hm]
      have hidx : k + 1 + idxOf id rest = k + idxOf id (x :: rest) := by
        simp only [idxOf, if_neg h]
        omega
      rw [hidx]

theorem rrfFused_get (d s : List String) (hd : d.Nodup) (hs : s.Nodup)
    (id : String) :
    alGet id (rrfFused d s) =
      if id ∈ d ∨ id ∈ s then some (rrfContrib d id + rrfContrib s id)
      else none := by
  have hinner : alGet id (rrfFoldGo 0 d []) =
      if id ∈ d then some (rrfContrib d id) else none := by
    by_cases hmd : id ∈ d
    · rw [rrfFoldGo_get_mem id d 0 [] hd hmd, if_pos hmd]
      simp [rrfContrib, hmd, alGet]
    · rw [rrfFoldGo_get_not_mem id d 0 [] hmd, if_neg hmd]
      rfl
  show alGet id (rrfFoldGo 0 s (rrfFoldGo 0 d [])) = _
  by_cases hms : id ∈ s
  · rw [rrfFoldGo_get_mem id s 0 _ hs hms, hinner]
    have hcs : rrfContrib s id = 1 / (60 + ((0 + idxOf id s : ℕ) : ℚ) + 1) := by
      simp [rrfContrib, hms]
    rw [if_pos (Or.inr hms), ← hcs]
    by_cases hmd : id ∈ d
    · simp [hmd, rrfContrib]
    · simp [hmd, rrfContrib]
  · rw [rrfFoldGo_get_not_mem id s 0 _ hms, hinner]
    have hcs : rrfContrib s id = 0 := by simp [rrfContrib, hms]
    by_cases hmd : id ∈ d
    · rw [if_pos hmd, if_pos (Or.inl hmd), hcs, add_zero]
    · rw [if_neg hmd, if_neg (by tauto)]

/-- Claim C5: in hybrid search, an entry at zero-based position `i` of the
dense or sparse ranking contributes `1 / (60 + i + 1)` to its chunk's
fused score, and a chunk's fused score is exactly the sum of its
contributions over the rankings containing it (one ranking alone when it
appears in only one). -/
theorem rrf_contribution (denseIds sparseIds : List String)
    (hd : denseIds.Nodup) (hs : sparseIds.Nodup) (id : String) :
    alGet id (rrfFused denseIds sparseIds) =
      if id ∈ denseIds ∨ id ∈ sparseIds then
        some (rrfContrib denseIds id + rrfContrib sparseIds id)
      else none :=
  rrfFused_get denseIds sparseIds hd hs id

/-- Witness for C5, the spec's scenario: a chunk at dense rank 4 and
sparse rank 0 receives fused score `1/65 + 1/61`. -/
theorem rrf_contribution_witness :
    alGet "x" (rrfFused ["a", "b", "c", "d", "x"] ["x"]) =
      (if "x" ∈ ["a", "b", "c", "d", "x"] ∨ "x" ∈ ["x"] then
        some (rrfContrib ["a", "b", "c", "d", "x"] "x" + rrfContrib ["x"] "x")
      else none) ∧
    rrfContrib ["a", "b", "c", "d", "x"] "x" + rrfContrib ["x"] "x" =
      1 / 65 + 1 / 61 :=
  ⟨rrf_contribution ["a", "b", "c", "d", "x"] ["x"] (by decide) (by decide) "x",
   by simp [rrfContrib, idxOf]; norm_num⟩

/-- Counterexample to claim C8 as stated: with sparse ranking `A = ["x"]`,
dense ranking `B = ["y"]` and `topK = 1`, fusing `A` with `B` returns the
result set `{"y"}` while fusing `B` with `A` returns `{"x"}` — the
truncated result sets differ, because both chunks tie at fused score
`1/61` and the stable sort keeps whichever ranking was processed first. -/
theorem rrf_not_symmetric :
    "y" ∈ (hybridRank ["y"] ["x"] 1).map Prod.fst ∧
    "y" ∉ (hybridRank ["x"] ["y"] 1).map Prod.fst := by
  simp [hybridRank, rrfFused, rrfFoldGo, rrfAdd, alSet, alGet, sortDesc, insertDesc]

/-- Claim C8 (amended): reciprocal rank fusion is symmetric at the level
of the fused score map — every chunk id receives the same fused score
whether the rankings are fused as (A, B) or as (B, A); the topK-truncated
result list, however, may differ on score ties. -/
theorem rrf_symmetric_scores (a b : List String) (ha : a.Nodup)
    (hb : b.Nodup) (id : String) :
    alGet id (rrfFused a b) = alGet id (rrfFused b a) := by
  rw [rrfFused_get a b ha hb id, rrfFused_get b a hb ha id]
  by_cases h : id ∈ a ∨ id ∈ b
  · rw [if_pos h, if_pos (Or.symm h), add_comm]
  · rw [if_neg h, if_neg (fun hh => h (Or.symm hh))]

/-- Witness for the amended C8 at a concrete instance. -/
theorem rrf_symmetric_scores_witness :
    alGet "x" (rrfFused ["x", "z"] ["y"]) = alGet "x" (rrfFused ["y"] ["x", "z"]) :=
  rrf_symmetric_scores ["x", "z"] ["y"] (by decide) (by decide) "x"

/-! ## Ingest commit behavior (claim C7) -/

/-- Counterexample to claim C7 as stated: a dense-mode ingest (here with a
failing embedder, though the outcome is the same on success) commits the
chunk to the chunk map but never adds its term statistics to the sparse
index — `buildBM25` only runs in sparse and hybrid modes — so a
subsequent sparse-mode search for the chunk's own text finds nothing. -/
theorem ingest_dense_skips_sparse_index :
    (ingestCommit emptySession [Chunk.mk "d:0-3" "d" "cat" 0 3]
        Retrieval.dense none).bm25 = emptyIndex ∧
    alGet "d:0-3"
        (ingestCommit emptySession [Chunk.mk "d:0-3" "d" "cat" 0 3]
          Retrieval.dense none).chunkMap =
      some (Chunk.mk "d:0-3" "d" "cat" 0 3) ∧
    searchBM25
        (ingestCommit emptySession [Chunk.mk "d:0-3" "d" "cat" 0 3]
          Retrieval.dense none).bm25 "cat" 10 = [] := by
  have hb : (ingestCommit emptySession [Chunk.mk "d:0-3" "d" "cat" 0 3]
      Retrieval.dense none).bm25 = emptyIndex := by
    simp [ingestCommit, emptySession]
  refine ⟨hb, ?_, ?_⟩
  · simp [ingestCommit, emptySession, alSet, alGet]
  · rw [hb]
    exact search_empty_index "cat" 10

/-- Claim C7 (amended): the chunk-map commit and the sparse-index commit of
an ingest are independent of the embedding outcome — the state of both
after `handleIngest` is the same whether the external embedder fails or
succeeds — and in sparse and hybrid modes the sparse index receives every
chunk's term statistics. In dense mode the sparse index is not touched at
all (the unamended claim fails there). -/
theorem ingest_commit_independent_of_embedding (st : SessionState)
    (chunks : List Chunk) (r : Retrieval) (embedResult : Option (List (List ℚ))) :
    (ingestCommit st chunks r embedResult).chunkMap =
      chunks.foldl (fun m c => alSet c.id c m) st.chunkMap ∧
    (ingestCommit st chunks r embedResult).bm25 =
      (if r = Retrieval.sparse ∨ r = Retrieval.hybrid then
        addDocuments st.bm25 (chunks.map (fun c => BM25Doc.mk c.id c.text))
      else st.bm25) := by
  cases r <;> cases embedResult <;> simp [ingestCommit]

/-- Witness for the amended C7 at a concrete state: a hybrid-mode ingest
with a failed embedder still commits the sparse index. -/
theorem ingest_commit_independent_of_embedding_witness :
    (ingestCommit emptySession [Chunk.mk "d:0-3" "d" "cat" 0 3]
        Retrieval.hybrid none).chunkMap =
      [Chunk.mk "d:0-3" "d" "cat" 0 3].foldl
        (fun m c => alSet c.id c m) emptySession.chunkMap ∧
    (ingestCommit emptySession [Chunk.mk "d:0-3" "d" "cat" 0 3]
        Retrieval.hybrid none).bm25 =
      (if Retrieval.hybrid = Retrieval.sparse ∨ Retrieval.hybrid = Retrieval.hybrid
       then
        addDocuments emptySession.bm25
          ([Chunk.mk "d:0-3" "d" "cat" 0 3].map (fun c => BM25Doc.mk c.id c.text))
      else emptySession.bm25) :=
  ingest_commit_independent_of_embedding emptySession
    [Chunk.mk "d:0-3" "d" "cat" 0 3] Retrieval.hybrid none

/-! ## Token-window scenario (claim C4) -/

/-- Claim C4: on any document with exactly 25 whitespace-delimited tokens,
`chunkByTokens` with `maxTokens = 10` and `overlapTokens = 3` produces
exactly 4 chunks, whose token windows are `[0,10)`, `[7,17)`, `[14,24)`
and `[21,25)` (starts 0, 7, 14, 21, the last truncated to the remaining
tokens), each chunk spanning from its window's first token start to its
last token end, and the windows together cover all 25 token indices. -/
theorem chunkByTokens_25_10_3 (text docId : String)
    (h : (tokenSpans text).length = 25) :
    (chunkByTokens text docId 10 3).length = 4 ∧
    chunkWindows 25 10 7 = [(0, 10), (7, 17), (14, 24), (21, 25)] ∧
    (chunkByTokens text docId 10 3).map (fun c => (c.charStart, c.charEnd)) =
      [(((tokenSpans text).getD 0 (0, 0)).1, ((tokenSpans text).getD 9 (0, 0)).2),
       (((tokenSpans text).getD 7 (0, 0)).1, ((tokenSpans text).getD 16 (0, 0)).2),
       (((tokenSpans text).getD 14 (0, 0)).1, ((tokenSpans text).getD 23 (0, 0)).2),
       (((tokenSpans text).getD 21 (0, 0)).1, ((tokenSpans text).getD 24 (0, 0)).2)] ∧
    ∀ i, i < 25 → ∃ w, w ∈ chunkWindows 25 10 7 ∧ w.1 ≤ i ∧ i < w.2 := by
  have hw : chunkWindows 25 10 7 = [(0, 10), (7, 17), (14, 24), (21, 25)] := by
    decide
  have hne : tokenSpans text ≠ [] := by
    intro hnil
    rw [hnil] at h
    cases h
  have hstride : max 1 (10 - 3) = 7 := by norm_num
  have hchunks : chunkByTokens text docId 10 3 =
      [(0, 10), (7, 17), (14, 24), (21, 25)].map
        (chunkOfWindow text docId (tokenSpans text)) := by
    rw [chunkByTokens]
    simp only [if_neg hne, hstride, h, hw]
  refine ⟨by rw [hchunks]; rfl, hw, ?_, by decide⟩
  rw [hchunks]
  simp [chunkOfWindow]

/-- Witness for C4 on a concrete 25-token document. -/
theorem chunkByTokens_25_10_3_witness :
    (chunkByTokens "a a a a a a a a a a a a a a a a a a a a a a a a a" "d" 10 3).length = 4 ∧
    chunkWindows 25 10 7 = [(0, 10), (7, 17), (14, 24), (21, 25)] ∧
    (chunkByTokens "a a a a a a a a a a a a a a a a a a a a a a a a a" "d" 10 3).map
        (fun c => (c.charStart, c.charEnd)) =
      [(((tokenSpans "a a a a a a a a a a a a a a a a a a a a a a a a a").getD 0 (0, 0)).1,
        ((tokenSpans "a a a a a a a a a a a a a a a a a a a a a a a a a").getD 9 (0, 0)).2),
       (((tokenSpans "a a a a a a a a a a a a a a a a a a a a a a a a a").getD 7 (0, 0)).1,
        ((tokenSpans "a a a a a a a a a a a a a a a a a a a a a a a a a").getD 16 (0, 0)).2),
       (((tokenSpans "a a a a a a a a a a a a a a a a a a a a a a a a a").getD 14 (0, 0)).1,
        ((tokenSpans "a a a a a a a a a a a a a a a a a a a a a a a a a").getD 23 (0, 0)).2),
       (((tokenSpans "a a a a a a a a a a a a a a a a a a a a a a a a a").getD 21 (0, 0)).1,
        ((tokenSpans "a a a a a a a a a a a a a a a a a a a a a a a a a").getD 24 (0, 0)).2)] ∧
    ∀ i, i < 25 → ∃ w, w ∈ chunkWindows 25 10 7 ∧ w.1 ≤ i ∧ i < w.2 :=
  chunkByTokens_25_10_3 "a a a a a a a a a a a a a a a a a a a a a a a a a" "d"
    (by decide)

/-! ## Chunk coverage (claim C2) -/

theorem scan_open :
    ∀ (cs : List Char) (i s : Nat),
      ∃ e rest, scanAux cs i (some s) = (s, e) :: rest ∧ i ≤ e := by
  intro cs
  induction cs with
  | nil => intro i s; exact ⟨i, [], rfl, le_refl i⟩
  | cons c cs ih =>
    intro i s
    by_cases hws : isWS c
    · exact ⟨i, scanAux cs (i + 1) none, by simp [scanAux, hws], le_refl i⟩
    · obtain ⟨e, rest, heq, hle⟩ := ih (i + 1) s
      exact ⟨e, rest, by simp [scanAux, hws, heq], by omega⟩

theorem scan_cover :
    ∀ (cs : List Char) (i : Nat) (cur : Option Nat) (j : Nat),
      (∀ s, cur = some s → s ≤ i) → i ≤ j → j < i + cs.length →
      isWS (cs.getD (j - i) ' ') = false →
      ∃ ab, ab ∈ scanAux cs i cur ∧ ab.1 ≤ j ∧ j < ab.2 := by
  intro cs
  induction cs with
  | nil =>
    intro i cur j _ hij hlen _
    simp only [List.length_nil] at hlen
    exact ((by omega : False)).elim
  | cons c cs ih =>
    intro i cur j hcur hij hlen hws
    by_cases hji : j = i
    · subst hji
      have hc : isWS c = false := by simpa using hws
      cases cur with
      | none =>
        obtain ⟨e, rest, heq, hle⟩ := scan_open cs (j + 1) j
        refine ⟨(j, e), ?_, le_refl j, by omega⟩
        simp only [scanAux, hc, Bool.false_eq_true, if_neg, not_false_iff, heq]
        exact List.mem_cons_self _ _
      | some s =>
        have hs : s ≤ j := hcur s rfl
        obtain ⟨e, rest, heq, hle⟩ := scan_open cs (j + 1) s
        refine ⟨(s, e), ?_, hs, by omega⟩
        simp only [scanAux, hc, Bool.false_eq_true, if_neg, not_false_iff, heq]
        exact List.mem_cons_self _ _
    · have hij2 : i + 1 ≤ j := by omega
      have hws2 : isWS (cs.getD (j - (i + 1)) ' ') = false := by
        have hsh : (c :: cs).getD (j - i) ' ' = cs.getD (j - (i + 1)) ' ' := by
          have hpos : j - i = (j - (i + 1)) + 1 := by omega
          rw [hpos]
          rfl
        rwa [hsh] at hws
      have hlen2 : j < i + 1 + cs.length := by
        simp only [List.length_cons] at hlen
        omega
      by_cases hwsc : isWS c
      · cases cur with
        | none =>
          obtain ⟨ab, hmem, h1, h2⟩ :=
            ih (i + 1) none j (by simp) hij2 hlen2 hws2
          refine ⟨ab, ?_, h1, h2⟩
          simpa [scanAux, hwsc] using hmem
        | some s =>
          obtain ⟨ab, hmem, h1, h2⟩ :=
            ih (i + 1) none j (by simp) hij2 hlen2 hws2
          refine ⟨ab, ?_, h1, h2⟩
          simp only [scanAux, hwsc, if_pos]
          exact List.mem_cons_of_mem _ hmem
      · cases cur with
        | none =>
          obtain ⟨ab, hmem, h1, h2⟩ :=
            ih (i + 1) (some i) j
              (by intro t ht; injection ht with hh; omega) hij2 hlen2 hws2
          refine ⟨ab, ?_, h1, h2⟩
          simpa [scanAux, hwsc] using hmem
        | some s =>
          have hs : s ≤ i := hcur s rfl
          obtain ⟨ab, hmem, h1, h2⟩ :=
            ih (i + 1) (some s) j
              (by intro t ht; injection ht with hh; omega) hij2 hlen2 hws2
          refine ⟨ab, ?_, h1, h2⟩
          simpa [scanAux, hwsc] using hmem

/-- Spans are chained: each span starts at or after `lo`, is nonempty, and
the rest is chained from its end. -/
def Mono : Nat → List (Nat × Nat) → Prop
  | _, [] => True
  | lo, ab :: rest => lo ≤ ab.1 ∧ ab.1 < ab.2 ∧ Mono ab.2 rest

theorem mono_weaken :
    ∀ (l : List (Nat × Nat)) (lo lo2 : Nat), lo2 ≤ lo → Mono lo l →
      Mono lo2 l := by
  intro l lo lo2 hle hm
  cases l with
  | nil => trivial
  | cons ab rest => exact ⟨by have := hm.1; omega, hm.2.1, hm.2.2⟩

theorem scan_mono :
    ∀ (cs : List Char) (i : Nat) (cur : Option Nat),
      (∀ s, cur = some s → s < i) →
      Mono (match cur with | none => i | some s => s) (scanAux cs i cur) := by
  intro cs
  induction cs with
  | nil =>
    intro i cur hcur
    cases cur with
    | none => trivial
    | some s => exact ⟨le_refl s, hcur s rfl, trivial⟩
  | cons c cs ih =>
    intro i cur hcur
    by_cases hws : isWS c
    · cases cur with
      | none =>
        simp only [scanAux, hws, if_pos]
        exact mono_weaken _ (i + 1) i (by omega) (ih (i + 1) none (by simp))
      | some s =>
        simp only [scanAux, hws, if_pos]
        refine ⟨le_refl s, hcur s rfl, ?_⟩
        exact mono_weaken _ (i + 1) i (by omega) (ih (i + 1) none (by simp))
    · cases cur with
      | none =>
        simp only [scanAux, hws, Bool.false_eq_true, if_neg, not_false_iff]
        have := ih (i + 1) (some i)
          (by intro t ht; injection ht with hh; omega)
        exact this
      | some s =>
        simp only [scanAux, hws, Bool.false_eq_true, if_neg, not_false_iff]
        have hsi : s < i := hcur s rfl
        have := ih (i + 1) (some s)
          (by intro t ht; injection ht with hh; omega)
        exact this

theorem mono_first :
    ∀ (l : List (Nat × Nat)) (lo k : Nat) (d : Nat × Nat), Mono lo l →
      k < l.length → lo ≤ (l.getD k d).1 := by
  intro l
  induction l with
  | nil => intro lo k d _ hk; simp at hk
  | cons ab rest ih =>
    intro lo k d hm hk
    cases k with
    | zero => exact hm.1
    | succ k =>
      have h1 := ih ab.2 k d hm.2.2 (by simpa using hk)
      have h2 : lo ≤ ab.2 := by have := hm.1; have := hm.2.1; omega
      simp only [List.getD_cons_succ]
      omega

theorem mono_valid :
    ∀ (l : List (Nat × Nat)) (lo k : Nat) (d : Nat × Nat), Mono lo l →
      k < l.length → (l.getD k d).1 < (l.getD k d).2 := by
  intro l
  induction l with
  | nil => intro lo k d _ hk; simp at hk
  | cons ab rest ih =>
    intro lo k d hm hk
    cases k with
    | zero => exact hm.2.1
    | succ k =>
      simp only [List.getD_cons_succ]
      exact ih ab.2 k d hm.2.2 (by simpa using hk)

theorem mono_mono :
    ∀ (l : List (Nat × Nat)) (lo k m : Nat) (d : Nat × Nat), Mono lo l →
      k ≤ m → m < l.length →
      (l.getD k d).1 ≤ (l.getD m d).1 ∧ (l.getD k d).2 ≤ (l.getD m d).2 := by
  intro l
  induction l with
  | nil => intro lo k m d _ _ hm; simp at hm
  | cons ab rest ih =>
    intro lo k m d hmono hkm hm
    cases k with
    | zero =>
      cases m with
      | zero => exact ⟨le_refl _, le_refl _⟩
      | succ m =>
        have hlen : m < rest.length := by simpa using hm
        have hfst := mono_first rest ab.2 m d hmono.2.2 hlen
        have hval := mono_valid rest ab.2 m d hmono.2.2 hlen
        have hab := hmono.2.1
        simp only [List.getD_cons_zero, List.getD_cons_succ]
        exact ⟨by omega, by omega⟩
    | succ k =>
      cases m with
      | zero => exact ((by omega : False)).elim
      | succ m =>
        simp only [List.getD_cons_succ]
        exact ih ab.2 k m d hmono.2.2 (by omega) (by simpa using hm)

theorem win_cover :
    ∀ (fuel n maxT stride tStart k : Nat), 1 ≤ stride → stride ≤ maxT →
      n ≤ tStart + fuel → tStart ≤ k → k < n →
      ∃ w, w ∈ chunkWindowsGo n maxT stride fuel tStart ∧ w.1 ≤ k ∧ k < w.2 := by
  intro fuel
  induction fuel with
  | zero => intro n maxT stride tStart k _ _ hfe htk hkn; exact ((by omega : False)).elim
  | succ fuel ih =>
    intro n maxT stride tStart k hs hsm hfe htk hkn
    have ht : tStart < n := by omega
    by_cases hk : k < min (tStart + maxT) n
    · refine ⟨(tStart, min (tStart + maxT) n), ?_, htk, hk⟩
      simp only [chunkWindowsGo, ht, if_pos]
      exact List.mem_cons_self _ _
    · have htm : min (tStart + maxT) n = tStart + maxT := by omega
      have hne : ¬ min (tStart + maxT) n = n := by omega
      obtain ⟨w, hmem, h1, h2⟩ :=
        ih n maxT stride (tStart + stride) k hs hsm (by omega) (by omega) hkn
      refine ⟨w, ?_, h1, h2⟩
      simp only [chunkWindowsGo, ht, if_pos, hne, if_neg, not_false_iff]
      exact List.mem_cons_of_mem _ hmem

theorem win_wf :
    ∀ (fuel n maxT stride tStart : Nat) (w : Nat × Nat), 1 ≤ maxT →
      w ∈ chunkWindowsGo n maxT stride fuel tStart → w.1 < w.2 ∧ w.2 ≤ n := by
  intro fuel
  induction fuel with
  | zero => intro n maxT stride tStart w _ hmem; simp [chunkWindowsGo] at hmem
  | succ fuel ih =>
    intro n maxT stride tStart w hmax hmem
    by_cases ht : tStart < n
    · simp only [chunkWindowsGo, ht, if_pos, List.mem_cons] at hmem
      rcases hmem with h1 | h2
      · subst h1
        constructor
        · simp only []
          omega
        · simp only []
          omega
      · by_cases he : min (tStart + maxT) n = n
        · rw [if_pos he] at h2
          cases h2
        · rw [if_neg he] at h2
          exact ih n maxT stride (tStart + stride) w hmax h2
    · simp [chunkWindowsGo, ht] at hmem

/-- Counterexample to claim C2 as stated: with the text `"a "` (a token
followed by a trailing space), `chunkByTokens` produces the single chunk
spanning `[0, 1)`, so the character at position 1 — a valid position of
the input — lies in no chunk's span. -/
theorem chunk_coverage_counterexample :
    (1 : Nat) < "a ".data.length ∧
    ¬ ∃ c, c ∈ chunkByTokens "a " "d" 1 0 ∧ c.charStart ≤ 1 ∧ 1 < c.charEnd := by
  constructor
  · decide
  · decide

/-- Claim C2 (amended): for `chunkByTokens` with `maxTokens ≥ 1`, every
non-whitespace character position of the input lies inside at least one
produced chunk's `[charStart, charEnd)` span. Positions holding
whitespace (for instance a leading or trailing whitespace run) may lie
outside every span, which is what refutes the unamended claim. -/
theorem chunkByTokens_covers_nonws (text docId : String)
    (maxT overlap p : Nat) (hmax : 1 ≤ maxT) (hp : p < text.data.length)
    (hws : isWS (text.data.getD p ' ') = false) :
    ∃ c, c ∈ chunkByTokens text docId maxT overlap ∧
      c.charStart ≤ p ∧ p < c.charEnd := by
  obtain ⟨ab, habmem, hab1, hab2⟩ :=
    scan_cover text.data 0 none p (by simp) (Nat.zero_le p)
      (by simpa using hp) hws
  obtain ⟨⟨k, hk⟩, hget⟩ :=
    List.mem_iff_get.mp (show ab ∈ tokenSpans text from habmem)
  have hmono : Mono 0 (tokenSpans text) :=
    scan_mono text.data 0 none (by simp)
  have hgd : (tokenSpans text).getD k (0, 0) = ab := by
    rw [List.getD_eq_getElem _ _ hk]
    exact hget
  have hstride1 : 1 ≤ max 1 (maxT - overlap) := le_max_left 1 _
  have hstridem : max 1 (maxT - overlap) ≤ maxT := by omega
  obtain ⟨w, hwmem, hw1, hw2⟩ :=
    win_cover (tokenSpans text).length (tokenSpans text).length maxT
      (max 1 (maxT - overlap)) 0 k hstride1 hstridem (by omega)
      (Nat.zero_le k) hk
  have hwf := win_wf (tokenSpans text).length (tokenSpans text).length maxT
    (max 1 (maxT - overlap)) 0 w hmax hwmem
  have hne : tokenSpans text ≠ [] := by
    intro hnil
    rw [hnil] at hk
    simp at hk
  refine ⟨chunkOfWindow text docId (tokenSpans text) w, ?_, ?_, ?_⟩
  · simp only [chunkByTokens, if_neg hne]
    exact List.mem_map_of_mem _ hwmem
  · have h1 := mono_mono (tokenSpans text) 0 w.1 k (0, 0) hmono hw1 hk
    show ((tokenSpans text).getD w.1 (0, 0)).1 ≤ p
    calc ((tokenSpans text).getD w.1 (0, 0)).1
        ≤ ((tokenSpans text).getD k (0, 0)).1 := h1.1
      _ = ab.1 := by rw [hgd]
      _ ≤ p := hab1
  · have hk2 : k ≤ w.2 - 1 := by omega
    have hlt : w.2 - 1 < (tokenSpans text).length := by
      have := hwf.1
      have := hwf.2
      omega
    have h2 := mono_mono (tokenSpans text) 0 k (w.2 - 1) (0, 0) hmono hk2 hlt
    show p < ((tokenSpans text).getD (w.2 - 1) (0, 0)).2
    calc p < ab.2 := hab2
      _ = ((tokenSpans text).getD k (0, 0)).2 := by rw [hgd]
      _ ≤ ((tokenSpans text).getD (w.2 - 1) (0, 0)).2 := h2.2

/-- Witness for the amended C2: position 3 of `"ab cd"` (the letter `c`)
lies in a chunk span of `chunkByTokens "ab cd" "d" 1 0`. -/
theorem chunkByTokens_covers_nonws_witness :
    ∃ c, c ∈ chunkByTokens "ab cd" "d" 1 0 ∧ c.charStart ≤ 3 ∧ 3 < c.charEnd :=
  chunkByTokens_covers_nonws "ab cd" "d" 1 0 3 (by decide) (by decide) (by decide)

/-! ## BM25 score positivity and query-term matching (claims C10 and C3) -/

/-- Invariant of every index reachable through `addDocuments` from the
documents `docs`: every posting list is nonempty, no longer than the
document count, witnesses a positive total length, and each posting has
`tf ≥ 1` and stems from a document of `docs` whose tokens contain the
term. -/
def PostingsOK (docs : List BM25Doc) (st : BM25State) : Prop :=
  ∀ t ps, alGet t st.vocab = some ps →
    ps ≠ [] ∧ ps.length ≤ st.totalDocs ∧ 1 ≤ st.totalDocLength ∧
    ∀ pp, pp ∈ ps →
      1 ≤ pp.tf ∧ ∃ d, d ∈ docs ∧ pp.docId = d.id ∧ t ∈ tokenize d.text

theorem postingsOK_mono (docs docs2 : List BM25Doc) (st : BM25State)
    (hsub : ∀ d, d ∈ docs → d ∈ docs2) (h : PostingsOK docs st) :
    PostingsOK docs2 st := by
  intro t ps hget
  obtain ⟨h1, h2, h3, h4⟩ := h t ps hget
  refine ⟨h1, h2, h3, ?_⟩
  intro pp hpp
  obtain ⟨hp1, d, hd1, hd2, hd3⟩ := h4 pp hpp
  exact ⟨hp1, d, hsub d hd1, hd2, hd3⟩

theorem buildTF_pos_go :
    ∀ (toks : List String) (m : List (String × Nat)), (∀ e ∈ m, 1 ≤ e.2) →
      ∀ e ∈ toks.foldl tfStep m, 1 ≤ e.2 := by
  intro toks
  induction toks with
  | nil => intro m hm e he; exact hm e he
  | cons t rest ih =>
    intro m hm e he
    rw [List.foldl_cons] at he
    refine ih _ ?_ e he
    intro f hf
    rcases mem_alSet f t _ m hf with h1 | h2
    · rw [h1]; omega
    · exact hm f h2

theorem buildTF_keys_go :
    ∀ (toks : List String) (m : List (String × Nat)) (e : String × Nat),
      e ∈ toks.foldl tfStep m → e.1 ∈ alKeys m ∨ e.1 ∈ toks := by
  intro toks
  induction toks with
  | nil => intro m e he; exact Or.inl (mem_keys_of_mem e.1 e.2 m (by cases e; exact he))
  | cons t rest ih =>
    intro m e he
    rw [List.foldl_cons] at he
    rcases ih _ e he with h1 | h2
    · rcases mem_alKeys_alSet e.1 t _ m h1 with h3 | h4
      · exact Or.inr (by rw [h3]; exact List.mem_cons_self _ _)
      · exact Or.inl h4
    · exact Or.inr (List.mem_cons_of_mem _ h2)

theorem buildTF_fact (toks : List String) (t : String) (n : Nat)
    (h : alGet t (buildTF toks) = some n) : 1 ≤ n ∧ t ∈ toks := by
  have hm := alGet_mem t n _ h
  constructor
  · exact buildTF_pos_go toks [] (by simp) (t, n) hm
  · rcases buildTF_keys_go toks [] (t, n) hm with h1 | h2
    · simp [alKeys] at h1
    · exact h2

theorem addDoc_postingsOK (docs : List BM25Doc) (st : BM25State) (d : BM25Doc)
    (h : PostingsOK docs st) : PostingsOK (d :: docs) (addDoc st d) := by
  intro t ps hget
  have hnd := buildTF_keysNodup (tokenize d.text)
  have hvoc : (addDoc st d).vocab =
      (buildTF (tokenize d.text)).foldl (vocabStep d.id) st.vocab := rfl
  cases hc : alGet t (buildTF (tokenize d.text)) with
  | some n =>
    rw [hvoc, vocabFold_get_some d.id _ st.vocab t n hnd hc] at hget
    have hps : ps = (alGet t st.vocab).getD [] ++ [Posting.mk d.id n] := by
      injection hget with hh
      exact hh.symm
    obtain ⟨hn1, htmem⟩ := buildTF_fact _ t n hc
    have htoks : 1 ≤ (tokenize d.text).length :=
      List.length_pos.mpr (List.ne_nil_of_mem htmem)
    refine ⟨by rw [hps]; simp, ?_, ?_, ?_⟩
    · rw [hps]
      cases hov : alGet t st.vocab with
      | none =>
        show ([] : List Posting).length + 1 ≤ (addDoc st d).totalDocs
        simp [addDoc]
      | some ops =>
        have hlen := (h t ops hov).2.1
        simp only [Option.getD_some, List.length_append, List.length_cons,
          List.length_nil, addDoc]
        omega
    · show 1 ≤ (addDoc st d).totalDocLength
      simp only [addDoc]
      omega
    · intro pp hpp
      rw [hps] at hpp
      rcases List.mem_append.mp hpp with h1 | h2
      · cases hov : alGet t st.vocab with
        | none => rw [hov] at h1; cases h1
        | some ops =>
          rw [hov] at h1
          obtain ⟨hp1, dd, hd1, hd2, hd3⟩ := (h t ops hov).2.2.2 pp h1
          exact ⟨hp1, dd, List.mem_cons_of_mem _ hd1, hd2, hd3⟩
      · have hpe : pp = Posting.mk d.id n := by simpa using h2
        rw [hpe]
        exact ⟨hn1, d, List.mem_cons_self _ _, rfl, htmem⟩
  | none =>
    rw [hvoc, vocabFold_get_none d.id _ _ t hc] at hget
    obtain ⟨h1, h2, h3, h4⟩ := h t ps hget
    refine ⟨h1, ?_, ?_, ?_⟩
    · show ps.length ≤ (addDoc st d).totalDocs
      simp only [addDoc]
      omega
    · show 1 ≤ (addDoc st d).totalDocLength
      simp only [addDoc]
      omega
    · intro pp hpp
      obtain ⟨hp1, dd, hd1, hd2, hd3⟩ := h4 pp hpp
      exact ⟨hp1, dd, List.mem_cons_of_mem _ hd1, hd2, hd3⟩

theorem addDocuments_postingsOK_go :
    ∀ (docs : List BM25Doc) (st : BM25State) (docs0 : List BM25Doc),
      PostingsOK docs0 st → PostingsOK (docs ++ docs0) (addDocuments st docs) := by
  intro docs
  induction docs with
  | nil => intro st docs0 h; simpa [addDocuments] using h
  | cons d rest ih =>
    intro st docs0 h
    have h1 : PostingsOK (d :: docs0) (addDoc st d) := addDoc_postingsOK docs0 st d h
    have h2 := ih (addDoc st d) (d :: docs0) h1
    refine postingsOK_mono _ _ _ ?_ h2
    intro x hx
    simp only [List.mem_append, List.mem_cons] at hx ⊢
    tauto

theorem emptyIndex_postingsOK (docs : List BM25Doc) :
    PostingsOK docs emptyIndex := by
  intro t ps hget
  simp [emptyIndex, alGet] at hget

theorem addDocuments_postingsOK (docs : List BM25Doc) :
    PostingsOK docs (addDocuments emptyIndex docs) := by
  have := addDocuments_postingsOK_go docs emptyIndex [] (emptyIndex_postingsOK [])
  simpa using this

theorem addDocuments_k1b :
    ∀ (docs : List BM25Doc) (st : BM25State),
      (addDocuments st docs).k1 = st.k1 ∧ (addDocuments st docs).b = st.b := by
  intro docs
  induction docs with
  | nil => intro st; exact ⟨rfl, rfl⟩
  | cons d rest ih =>
    intro st
    have := ih (addDoc st d)
    simpa [addDocuments, addDoc] using this

theorem mem_insertDesc {α β : Type} [LinearOrder β] (e x : α × β) :
    ∀ l : List (α × β), e ∈ insertDesc x l → e = x ∨ e ∈ l := by
  intro l
  induction l with
  | nil => intro h; simpa [insertDesc] using h
  | cons y ys ih =>
    intro h
    rw [insertDesc] at h
    by_cases hc : x.2 < y.2
    · rw [if_pos hc] at h
      rcases List.mem_cons.mp h with h1 | h2
      · exact Or.inr (by rw [h1]; exact List.mem_cons_self _ _)
      · rcases ih h2 with h3 | h4
        · exact Or.inl h3
        · exact Or.inr (List.mem_cons_of_mem _ h4)
    · rw [if_neg hc] at h
      rcases List.mem_cons.mp h with h1 | h2
      · exact Or.inl h1
      · exact Or.inr h2

theorem mem_sortDesc {α β : Type} [LinearOrder β] (e : α × β) :
    ∀ l : List (α × β), e ∈ sortDesc l → e ∈ l := by
  intro l
  induction l with
  | nil => intro h; simpa [sortDesc] using h
  | cons x xs ih =>
    intro h
    have hx : sortDesc (x :: xs) = insertDesc x (sortDesc xs) := rfl
    rw [hx] at h
    rcases mem_insertDesc e x _ h with h1 | h2
    · exact (by rw [h1]; exact List.mem_cons_self _ _)
    · exact List.mem_cons_of_mem _ (ih h2)

/-- Defined link between a scores-map entry and the index: some query term
has a posting list containing a posting for this chunk id. -/
def LinkP (st : BM25State) (q id : String) : Prop :=
  ∃ t, t ∈ tokenize q ∧ ∃ ps, alGet t st.vocab = some ps ∧
    ∃ pp, pp ∈ ps ∧ pp.docId = id

theorem scoreStep_fold (st : BM25State) (avg idf : ℝ) (L : String → Prop)
    (hidf : 0 < idf) (hk : st.k1 = 6 / 5) (hb : st.b = 3 / 4) (havg : 0 < avg) :
    ∀ (ps : List Posting) (sc : List (String × ℝ)),
      (∀ pp ∈ ps, 1 ≤ pp.tf ∧ L pp.docId) →
      (∀ e ∈ sc, 0 < e.2 ∧ L e.1) →
      ∀ e ∈ ps.foldl (scoreStep st avg idf) sc, 0 < e.2 ∧ L e.1 := by
  have hk1R : (st.k1 : ℝ) = 6 / 5 := by rw [hk]; norm_num
  have hbR : (st.b : ℝ) = 3 / 4 := by rw [hb]; norm_num
  intro ps
  induction ps with
  | nil => intro sc _ hsc e he; exact hsc e he
  | cons pp rest ih =>
    intro sc hps hsc e he
    rw [List.foldl_cons] at he
    refine ih _ (fun q hq => hps q (List.mem_cons_of_mem _ hq)) ?_ e he
    intro f hf
    rcases mem_alSet f pp.docId _ sc hf with h1 | h2
    · have htf : (1 : ℝ) ≤ (pp.tf : ℝ) := by
        exact_mod_cast (hps pp (List.mem_cons_self _ _)).1
      have hdl : (0 : ℝ) ≤ (((alGet pp.docId st.docLengths).getD 0 : ℕ) : ℝ) :=
        Nat.cast_nonneg _
      have hfrac : (0 : ℝ) ≤
          (st.b : ℝ) * (((alGet pp.docId st.docLengths).getD 0 : ℕ) : ℝ) / avg := by
        rw [hbR]
        positivity
      have hdenom : 0 < (pp.tf : ℝ) +
          (st.k1 : ℝ) * (1 - (st.b : ℝ) +
            (st.b : ℝ) * (((alGet pp.docId st.docLengths).getD 0 : ℕ) : ℝ) / avg) := by
        rw [hk1R, hbR]
        rw [hbR] at hfrac
        nlinarith
      have hcontrib : 0 < idf * ((pp.tf : ℝ) * ((st.k1 : ℝ) + 1) /
          ((pp.tf : ℝ) +
            (st.k1 : ℝ) * (1 - (st.b : ℝ) +
              (st.b : ℝ) * (((alGet pp.docId st.docLengths).getD 0 : ℕ) : ℝ) / avg))) := by
        apply mul_pos hidf
        apply div_pos _ hdenom
        apply mul_pos (by linarith)
        rw [hk1R]
        norm_num
      have hold : 0 ≤ ((alGet pp.docId sc).getD 0 : ℝ) := by
        cases hov : alGet pp.docId sc with
        | none => simp
        | some v =>
          have := (hsc _ (alGet_mem _ _ _ hov)).1
          simp only [Option.getD_some]
          linarith
      rw [h1]
      exact ⟨by positivity, (hps pp (List.mem_cons_self _ _)).2⟩
    · exact hsc f h2

theorem termStep_fold (docs : List BM25Doc) (st : BM25State) (q : String)
    (hok : PostingsOK docs st) (hk : st.k1 = 6 / 5) (hb : st.b = 3 / 4) :
    ∀ (terms : List String) (sc : List (String × ℝ)),
      (∀ t ∈ terms, t ∈ tokenize q) →
      (∀ e ∈ sc, 0 < e.2 ∧ LinkP st q e.1) →
      ∀ e ∈ terms.foldl (termStep st (avgDocLen st)) sc,
        0 < e.2 ∧ LinkP st q e.1 := by
  intro terms
  induction terms with
  | nil => intro sc _ hsc e he; exact hsc e he
  | cons t rest ih =>
    intro sc hterms hsc e he
    rw [List.foldl_cons] at he
    refine ih _ (fun u hu => hterms u (List.mem_cons_of_mem _ hu)) ?_ e he
    intro f hf
    cases hv : alGet t st.vocab with
    | none =>
      rw [termStep, hv] at hf
      exact hsc f hf
    | some ps =>
      rw [termStep, hv] at hf
      obtain ⟨hne, hlen, hL, hmem⟩ := hok t ps hv
      have hps1 : 1 ≤ ps.length := List.length_pos.mpr hne
      have hN : 1 ≤ st.totalDocs := by omega
      have havg : 0 < avgDocLen st := by
        rw [avgDocLen, if_neg (by omega)]
        apply div_pos
        · have h1 : 0 < st.totalDocLength := by omega
          exact_mod_cast h1
        · have h2 : 0 < st.totalDocs := by omega
          exact_mod_cast h2
      have hidf : 0 < Real.log (1 +
          ((st.totalDocs : ℝ) - (ps.length : ℝ) + 1 / 2) /
            ((ps.length : ℝ) + 1 / 2)) := by
        apply Real.log_pos
        have hcast : (ps.length : ℝ) ≤ (st.totalDocs : ℝ) := by exact_mod_cast hlen
        have hnum : (0 : ℝ) < (st.totalDocs : ℝ) - (ps.length : ℝ) + 1 / 2 := by
          linarith
        have hden : (0 : ℝ) < (ps.length : ℝ) + 1 / 2 := by positivity
        have := div_pos hnum hden
        linarith
      refine scoreStep_fold st (avgDocLen st) _ (LinkP st q) hidf hk hb havg ps sc
        ?_ hsc f hf
      intro pp hpp
      exact ⟨(hmem pp hpp).1,
        t, hterms t (List.mem_cons_self _ _), ps, hv, pp, hpp, rfl⟩

/-- Every entry of a `search` on an index built by `addDocuments` from
`docs` has a strictly positive score and belongs to a document of `docs`
sharing a term with the query. -/
theorem search_entry_good (docs : List BM25Doc) (q : String) (k : Nat) :
    ∀ e ∈ searchBM25 (addDocuments emptyIndex docs) q k,
      0 < e.2 ∧ ∃ d, d ∈ docs ∧ d.id = e.1 ∧
        ∃ t, t ∈ tokenize q ∧ t ∈ tokenize d.text := by
  intro e he
  have hok := addDocuments_postingsOK docs
  have hkb := addDocuments_k1b docs emptyIndex
  have hscores : e ∈ bm25Scores (addDocuments emptyIndex docs) q := by
    have h1 : e ∈ sortDesc (bm25Scores (addDocuments emptyIndex docs) q) :=
      List.take_subset _ _ he
    exact mem_sortDesc e _ h1
  have hgood := termStep_fold docs (addDocuments emptyIndex docs) q hok
    (by rw [hkb.1]; rfl) (by rw [hkb.2]; rfl) (tokenize q) []
    (fun t ht => ht) (by simp) e hscores
  refine ⟨hgood.1, ?_⟩
  obtain ⟨t, htq, ps, hv, pp, hpp, hid⟩ := hgood.2
  obtain ⟨_, _, _, hmem⟩ := hok t ps hv
  obtain ⟨_, d, hd1, hd2, hd3⟩ := hmem pp hpp
  exact ⟨d, hd1, by rw [← hid, hd2], t, htq, hd3⟩

/-- Claim C10: every `(docId, score)` entry returned by `BM25Index.search`
has a strictly positive score and its chunk contains at least one query
term; chunks with no query term are omitted entirely (they never enter
the scores map) rather than returned with score 0. -/
theorem search_results_positive_and_matched (docs : List BM25Doc)
    (q : String) (k : Nat) :
    ForallList
      (fun e : String × ℝ => 0 < e.2 ∧ ∃ d, d ∈ docs ∧ d.id = e.1 ∧
        ∃ t, t ∈ tokenize q ∧ t ∈ tokenize d.text)
      (searchBM25 (addDocuments emptyIndex docs) q k) := by
  rw [forallList_iff]
  exact search_entry_good docs q k

/-! ## Two-document scenario (claim C3) -/

/-- The documents of the spec's scenario: both texts chunked with
`fixed_tokens{maxTokens: 10}` (one chunk each) and fed to
`addDocuments` as `{id: chunk.id, text: chunk.text}`. -/
def scenDocs : List BM25Doc :=
  (chunkByTokens "the cat sat on the mat" "doc1" 10 0 ++
    chunkByTokens "the dog sat on the log" "doc2" 10 0).map
    (fun c => BM25Doc.mk c.id c.text)

/-- The scenario index: both chunks added to a fresh `BM25Index`. -/
def scenIndex : BM25State := addDocuments emptyIndex scenDocs

/-- Claim C3: with doc1 = "the cat sat on the mat" and doc2 = "the dog sat
on the log" ingested as one chunk each (`fixed_tokens`, `maxTokens = 10`),
`search("cat")` returns exactly doc1's chunk, with a strictly positive
score, ranking it above doc2's chunk, whose accumulated score for the
query is 0 (it never enters the scores map). -/
theorem search_cat_scenario :
    (chunkByTokens "the cat sat on the mat" "doc1" 10 0).map (fun c => c.id) =
      ["doc1:0-22"] ∧
    (chunkByTokens "the dog sat on the log" "doc2" 10 0).map (fun c => c.id) =
      ["doc2:0-22"] ∧
    (searchBM25 scenIndex "cat" 10).map Prod.fst = ["doc1:0-22"] ∧
    ForallList (fun e : String × ℝ => 0 < e.2) (searchBM25 scenIndex "cat" 10) ∧
    (alGet "doc2:0-22" (bm25Scores scenIndex "cat")).getD 0 = 0 := by
  refine ⟨by rfl, by rfl, by rfl, ?_, by rfl⟩
  rw [forallList_iff]
  intro e he
  exact (search_entry_good scenDocs "cat" 10 e he).1

end Ragpack
